import Mathlib

/-!
# Benchfiler: the begin/end timing accumulator

A shallow embedding of `src/benchfiler.h`.  The C++ globals become explicit
values: `s_state` is a `benchfiler_state` passed in and returned, the value
`Sample()` reads from the performance counter is an argument `now`, and
`s_ticksPerMicrosecond` is an argument of `Report`.  Every `uint64_t` is a
`Nat` below `U64 = 2^64`; each operation that can wrap in C++ is reduced
modulo `U64` explicitly.
-/

namespace benchfiler

/-! ## Machine integers -/

/-- Number of values of a `uint64_t`, that is `2^64`. -/
def U64 : Nat := 18446744073709551616

/-- Largest `uint64_t`, the C constant of the same name. -/
def UINT64_MAX : Nat := 18446744073709551615

/-- Unsigned 64-bit addition `a + b`. -/
def add64 (a b : Nat) : Nat := (a + b) % U64

/-- Unsigned 64-bit subtraction `a - b`. -/
def sub64 (a b : Nat) : Nat := (a % U64 + (U64 - b % U64)) % U64

/-! ## Data model -/

/-- The record `struct benchfiler_state`, the type of the global `s_state`. -/
structure benchfiler_state where
  beginTimeTicks : Nat
  count : Nat
  allDurationTicks : Nat
  fastestTicks : Nat
  filled : Bool
deriving DecidableEq, Repr

/-- Value-initialised state `benchfiler_state{}`: the state of `s_state` at
process start and the one `Report` stores. -/
def zeroState : benchfiler_state :=
  { beginTimeTicks := 0, count := 0, allDurationTicks := 0, fastestTicks := 0, filled := false }

/-- Every integer field holds a `uint64_t` value. -/
def benchfiler_state.InRange (s : benchfiler_state) : Prop :=
  s.beginTimeTicks < U64 ∧ s.count < U64 ∧ s.allDurationTicks < U64 ∧ s.fastestTicks < U64

instance (s : benchfiler_state) : Decidable s.InRange := by
  unfold benchfiler_state.InRange; exact inferInstance

/-! ## Operations -/

/-- The function `Sample`: the counter reading `now`, as a `uint64_t`. -/
def Sample (now : Nat) : Nat := now % U64

/-- The function `Begin`, with `now` the counter reading it samples. -/
def Begin (s : benchfiler_state) (now : Nat) : benchfiler_state :=
  { s with beginTimeTicks := Sample now }

/-- The local `durationTicks` of `End`: `endTimeTicks - s_state.beginTimeTicks`. -/
def durationTicks (s : benchfiler_state) (now : Nat) : Nat :=
  sub64 (Sample now) s.beginTimeTicks

/-- The function `End`, with `now` the counter reading it samples. -/
def End (s : benchfiler_state) (now : Nat) : benchfiler_state :=
  if s.filled then s
  else
    let endTimeTicks := Sample now
    let durationTicks := sub64 endTimeTicks s.beginTimeTicks
    let newAllDuration := add64 s.allDurationTicks durationTicks
    -- don't overflow anything
    if newAllDuration < s.allDurationTicks || s.count == UINT64_MAX then
      { s with filled := true }
    else
      let s1 := { s with allDurationTicks := newAllDuration }
      let s2 :=
        if durationTicks < s1.fastestTicks || s1.fastestTicks == 0 then
          { s1 with fastestTicks := durationTicks }
        else s1
      { s2 with count := add64 s2.count 1 }

/-- The three numbers `Report` passes to `printf`. -/
structure ReportValues where
  avgMicros : Nat
  fastestMicros : Nat
  count : Nat
deriving DecidableEq, Repr

/-- The text `Report` prints: the format string with each `%llu` replaced by
the decimal numeral of its argument. -/
def ReportValues.text (r : ReportValues) : String :=
  "lowfiling report\n" ++
  "    avg (micros):     " ++ Nat.repr r.avgMicros ++ "\n" ++
  "    fastest (micros): " ++ Nat.repr r.fastestMicros ++ "\n" ++
  "    hit count:        " ++ Nat.repr r.count ++ "\n"

/-- The function `Report`, with `ticksPerMicrosecond` the value of the global
`s_ticksPerMicrosecond`.  It returns the printed values and the new state.
Either integer division by zero is undefined behaviour in C++: `none`. -/
def Report (ticksPerMicrosecond : Nat) (s : benchfiler_state) :
    Option (ReportValues × benchfiler_state) :=
  if s.count = 0 then none
  else
    let avgTicks := s.allDurationTicks / s.count
    if ticksPerMicrosecond = 0 then none
    else
      let avgMicros := avgTicks / ticksPerMicrosecond
      let fastestMicros := s.fastestTicks / ticksPerMicrosecond
      some ({ avgMicros := avgMicros, fastestMicros := fastestMicros, count := s.count },
            zeroState)

/-! ## Sequences of calls -/

/-- One call of `Begin` or of `End`, with the counter reading it samples. -/
inductive Mark where
  | Begin (now : Nat)
  | End (now : Nat)
deriving DecidableEq, Repr

/-- Effect of one `Begin` or `End` call on the state. -/
def Mark.apply (s : benchfiler_state) : Mark → benchfiler_state
  | Mark.Begin now => benchfiler.Begin s now
  | Mark.End now => benchfiler.End s now

/-- Effect of a sequence of `Begin` and `End` calls, first call first. -/
def runMarks (s : benchfiler_state) (ms : List Mark) : benchfiler_state :=
  ms.foldl Mark.apply s

/-- One call of the API after `Initialize`. -/
inductive Call where
  | Begin (now : Nat)
  | End (now : Nat)
  | Report
deriving DecidableEq, Repr

/-- One call: the new state and what the call printed, or `none` when the call
has undefined behaviour. -/
def Call.step (ticksPerMicrosecond : Nat) (s : benchfiler_state) :
    Call → Option (benchfiler_state × Option ReportValues)
  | Call.Begin now => some (benchfiler.Begin s now, none)
  | Call.End now => some (benchfiler.End s now, none)
  | Call.Report =>
    match benchfiler.Report ticksPerMicrosecond s with
    | none => none
    | some (r, s1) => some (s1, some r)

/-- The states and printed values after each call of a sequence, first call
first; `none` when some call has undefined behaviour. -/
def runCalls (ticksPerMicrosecond : Nat) :
    benchfiler_state → List Call → Option (List (benchfiler_state × Option ReportValues))
  | _, [] => some []
  | s, c :: cs =>
    match Call.step ticksPerMicrosecond s c with
    | none => none
    | some (s1, out) =>
      match runCalls ticksPerMicrosecond s1 cs with
      | none => none
      | some rest => some ((s1, out) :: rest)

/-- A `Begin`/`End` pair: `Begin` reads the counter at `start`, and the `End`
that follows reads it exactly `d` ticks later. -/
def timedPair (s : benchfiler_state) (p : Nat × Nat) : benchfiler_state :=
  End (Begin s p.1) (p.1 + p.2)

/-- Sequential `Begin`/`End` pairs, each given as `(start, d)`. -/
def runPairs (s : benchfiler_state) (ps : List (Nat × Nat)) : benchfiler_state :=
  ps.foldl timedPair s

/-- The durations `d` of a list of pairs `(start, d)`. -/
def durations (ps : List (Nat × Nat)) : List Nat := ps.map Prod.snd

/-- Whether `End` called in state `s` with counter reading `now` commits, that
is, gets past both of its early returns. -/
def commits (s : benchfiler_state) (now : Nat) : Bool :=
  !s.filled &&
    !(add64 s.allDurationTicks (durationTicks s now) < s.allDurationTicks
        || s.count == UINT64_MAX)

/-- The durations of the `End` calls of a sequence that committed, in call
order. -/
def committed : benchfiler_state → List Mark → List Nat
  | _, [] => []
  | s, Mark.Begin now :: ms => committed (Begin s now) ms
  | s, Mark.End now :: ms =>
    (if commits s now then [durationTicks s now] else []) ++ committed (End s now) ms

/-- Effect of a sequence of `Begin` calls with no `End` in between, given by
the counter readings they sample, first call first. -/
def runBegins (s : benchfiler_state) (samples : List Nat) : benchfiler_state :=
  samples.foldl Begin s

/-- The value `End` leaves in `fastestTicks` when it commits a duration `d`
and the field held `fastest` before. -/
def keepFastest (fastest d : Nat) : Nat :=
  if d < fastest ∨ fastest = 0 then d else fastest

/-! ## The two globals together -/

/-- The globals of the header: `s_ticksPerMicrosecond` and `s_state`. -/
structure Globals where
  s_ticksPerMicrosecond : Nat
  s_state : benchfiler_state
deriving DecidableEq, Repr

/-- Conversion of a signed 64-bit value to `uint64_t`. -/
def toUInt64 (i : Int) : Nat := (i % (U64 : Int)).toNat

/-- The function `Initialize`, with `frequency` the `QuadPart` (a `LONGLONG`,
a signed 64-bit integer) that `QueryPerformanceFrequency` stores.  The division is the signed
C++ division, which truncates toward zero. -/
def Initialize (g : Globals) (frequency : Int) : Globals :=
  { g with s_ticksPerMicrosecond := toUInt64 (Int.tdiv frequency 1000000) }

/-- The function `Begin` acting on the globals. -/
def Globals.Begin (g : Globals) (now : Nat) : Globals :=
  { g with s_state := benchfiler.Begin g.s_state now }

/-- The function `End` acting on the globals. -/
def Globals.End (g : Globals) (now : Nat) : Globals :=
  { g with s_state := benchfiler.End g.s_state now }

/-- The function `Report` acting on the globals: it reads
`s_ticksPerMicrosecond` and replaces `s_state`. -/
def Globals.Report (g : Globals) : Option (ReportValues × Globals) :=
  match benchfiler.Report g.s_ticksPerMicrosecond g.s_state with
  | none => none
  | some (r, s1) => some (r, { g with s_state := s1 })

/-! ## Reference notions used in the statements -/

/-- The durations of a list that come after its most recent zero (all of them
when none is zero). -/
def afterLastZero (ds : List Nat) : List Nat :=
  (ds.reverse.takeWhile (fun d => d != 0)).reverse

/-- The number an unsigned decimal numeral denotes, most significant digit
first. -/
def decimalValue (cs : List Char) : Nat :=
  cs.foldl (fun acc c => 10 * acc + (c.toNat - 48)) 0

/-- The line-feed character. -/
def lineFeed : Char := Char.ofNat 10

/-- The lines of the report, without their line feeds: the header, then the
three labelled values. -/
def ReportValues.lines (r : ReportValues) : List String :=
  [ "lowfiling report",
    "    avg (micros):     " ++ Nat.repr r.avgMicros,
    "    fastest (micros): " ++ Nat.repr r.fastestMicros,
    "    hit count:        " ++ Nat.repr r.count ]

/-! ## Arithmetic of the 64-bit operations -/

theorem U64_eq : U64 = 2 ^ 64 := by decide

theorem UINT64_MAX_eq : UINT64_MAX = 2 ^ 64 - 1 := by decide

theorem Sample_lt (now : Nat) : Sample now < U64 := by
  unfold Sample U64; omega

theorem Sample_of_lt {now : Nat} (h : now < U64) : Sample now = now := by
  unfold Sample; exact Nat.mod_eq_of_lt h

theorem add64_lt (a b : Nat) : add64 a b < U64 := by
  unfold add64 U64; omega

theorem sub64_lt (a b : Nat) : sub64 a b < U64 := by
  unfold sub64 U64; omega

theorem add64_of_lt {a b : Nat} (h : a + b < U64) : add64 a b = a + b := by
  unfold add64; exact Nat.mod_eq_of_lt h

theorem add64_wrap {a b : Nat} (ha : a < U64) (hb : b < U64) (h : U64 ≤ a + b) :
    add64 a b < a := by
  unfold add64 U64 at *; omega

theorem durationTicks_lt (s : benchfiler_state) (now : Nat) : durationTicks s now < U64 :=
  sub64_lt _ _

/-- The duration `End` computes is the difference of the two readings modulo
`2^64`. -/
theorem durationTicks_emod (s : benchfiler_state) (now : Nat) :
    ((durationTicks s now : Nat) : Int)
      = ((now : Int) - (s.beginTimeTicks : Int)) % (U64 : Int) := by
  unfold durationTicks sub64 Sample U64
  omega

/-- An `End` that reads the counter `d` ticks after its `Begin` computes the
duration `d`. -/
theorem durationTicks_Begin (s : benchfiler_state) (start d : Nat) (hd : d < U64) :
    durationTicks (Begin s start) (start + d) = d := by
  unfold durationTicks sub64 Begin Sample U64 at *
  simp only
  omega

/-! ## The three paths of `End` -/

theorem End_filled (s : benchfiler_state) (now : Nat) (hf : s.filled = true) :
    End s now = s := by
  simp [End, hf]

theorem End_freeze (s : benchfiler_state) (now : Nat) (hf : s.filled = false)
    (h : add64 s.allDurationTicks (durationTicks s now) < s.allDurationTicks
          ∨ s.count = UINT64_MAX) :
    End s now = { s with filled := true } := by
  unfold End
  simp only [hf, Bool.false_eq_true, if_false]
  have : (decide (add64 s.allDurationTicks (sub64 (Sample now) s.beginTimeTicks)
            < s.allDurationTicks) || s.count == UINT64_MAX) = true := by
    rcases h with h | h
    · simp [durationTicks] at h; simp [h]
    · simp [h]
  simp only [this, if_true]

theorem End_commit (s : benchfiler_state) (now : Nat) (hf : s.filled = false)
    (hsum : s.allDurationTicks + durationTicks s now < U64) (hc : s.count < UINT64_MAX) :
    End s now =
      { beginTimeTicks := s.beginTimeTicks
        count := s.count + 1
        allDurationTicks := s.allDurationTicks + durationTicks s now
        fastestTicks :=
          if durationTicks s now < s.fastestTicks ∨ s.fastestTicks = 0 then durationTicks s now
          else s.fastestTicks
        filled := false } := by
  have h1 : add64 s.allDurationTicks (durationTicks s now)
      = s.allDurationTicks + durationTicks s now := add64_of_lt hsum
  have h2 : add64 s.count 1 = s.count + 1 := by
    apply add64_of_lt; unfold UINT64_MAX at hc; unfold U64; omega
  have h3 : ¬ (s.allDurationTicks + durationTicks s now < s.allDurationTicks) := by omega
  have h4 : s.count ≠ UINT64_MAX := by omega
  unfold End
  unfold durationTicks at h1 h3 hsum
  simp only [hf, Bool.false_eq_true, if_false, h1, h3, h4, decide_False, beq_iff_eq,
    Bool.or_self, Bool.or_eq_true, decide_eq_true_eq, or_self]
  unfold durationTicks
  by_cases hfast : sub64 (Sample now) s.beginTimeTicks < s.fastestTicks ∨ s.fastestTicks = 0
  · simp only [hfast, if_true, h2]
  · simp only [hfast, if_false, h2]

/-! ## Sequences of `Begin` calls -/

theorem runBegins_nil (s : benchfiler_state) : runBegins s [] = s := rfl

theorem runBegins_cons (s : benchfiler_state) (x : Nat) (xs : List Nat) :
    runBegins s (x :: xs) = runBegins (Begin s x) xs := rfl

theorem runBegins_frame (samples : List Nat) : ∀ s : benchfiler_state,
    (runBegins s samples).count = s.count
      ∧ (runBegins s samples).allDurationTicks = s.allDurationTicks
      ∧ (runBegins s samples).fastestTicks = s.fastestTicks
      ∧ (runBegins s samples).filled = s.filled := by
  induction samples with
  | nil => intro s; exact ⟨rfl, rfl, rfl, rfl⟩
  | cons x xs ih =>
    intro s
    rw [runBegins_cons]
    exact ih (Begin s x)

theorem runBegins_append_last (s : benchfiler_state) (xs : List Nat) (x : Nat) :
    (runBegins s (xs ++ [x])).beginTimeTicks = Sample x := by
  simp [runBegins, List.foldl_append, Begin]

theorem runBegins_stamp (samples : List Nat) (s : benchfiler_state) (x : Nat)
    (hx : samples.getLast? = some x) :
    (runBegins s samples).beginTimeTicks = Sample x := by
  rcases List.eq_nil_or_concat samples with h | ⟨xs, y, h⟩
  · subst h; simp at hx
  · subst h
    rw [List.concat_eq_append] at hx ⊢
    rw [List.getLast?_append] at hx
    simp at hx
    subst hx
    exact runBegins_append_last s xs y

/-! ## Sequences of `Begin` and `End` calls -/

theorem Begin_InRange (s : benchfiler_state) (now : Nat) (hr : s.InRange) :
    (Begin s now).InRange :=
  ⟨Sample_lt now, hr.2.1, hr.2.2.1, hr.2.2.2⟩

theorem commits_iff (s : benchfiler_state) (now : Nat) (hr : s.InRange) :
    commits s now = true ↔
      s.filled = false ∧ s.allDurationTicks + durationTicks s now < U64
        ∧ s.count < UINT64_MAX := by
  have hd := durationTicks_lt s now
  obtain ⟨-, hc, ha, -⟩ := hr
  constructor
  · intro h
    simp only [commits, Bool.and_eq_true, Bool.not_eq_true', Bool.or_eq_false_iff,
      decide_eq_false_iff_not, beq_eq_false_iff_ne] at h
    obtain ⟨hf, hw, hne⟩ := h
    refine ⟨hf, ?_, ?_⟩
    · by_contra hge
      exact hw (add64_wrap ha hd (by omega))
    · unfold U64 at hc; unfold UINT64_MAX at hne ⊢; omega
  · rintro ⟨hf, hsum, hlt⟩
    have h1 : add64 s.allDurationTicks (durationTicks s now)
        = s.allDurationTicks + durationTicks s now := add64_of_lt hsum
    have h2 : s.count ≠ UINT64_MAX := by omega
    simp [commits, hf, h1, h2]

theorem End_of_commits (s : benchfiler_state) (now : Nat) (hr : s.InRange)
    (h : commits s now = true) :
    (End s now).InRange
      ∧ (End s now).allDurationTicks = s.allDurationTicks + durationTicks s now
      ∧ (End s now).count = s.count + 1 := by
  obtain ⟨hf, hsum, hlt⟩ := (commits_iff s now hr).1 h
  have hd := durationTicks_lt s now
  rw [End_commit s now hf hsum hlt]
  refine ⟨⟨hr.1, ?_, hsum, ?_⟩, rfl, rfl⟩
  · show s.count + 1 < U64
    unfold UINT64_MAX at hlt; unfold U64; omega
  · show (if durationTicks s now < s.fastestTicks ∨ s.fastestTicks = 0
        then durationTicks s now else s.fastestTicks) < U64
    split
    · exact hd
    · exact hr.2.2.2

theorem End_of_not_commits (s : benchfiler_state) (now : Nat)
    (h : commits s now = false) :
    (End s now).beginTimeTicks = s.beginTimeTicks
      ∧ (End s now).count = s.count
      ∧ (End s now).allDurationTicks = s.allDurationTicks
      ∧ (End s now).fastestTicks = s.fastestTicks := by
  cases hf : s.filled with
  | true => rw [End_filled s now hf]; exact ⟨rfl, rfl, rfl, rfl⟩
  | false =>
    have hw : add64 s.allDurationTicks (durationTicks s now) < s.allDurationTicks
        ∨ s.count = UINT64_MAX := by
      simp only [commits, hf, Bool.not_false, Bool.true_and, Bool.not_eq_false',
        Bool.or_eq_true, decide_eq_true_eq, beq_iff_eq] at h
      exact h
    rw [End_freeze s now hf hw]
    exact ⟨rfl, rfl, rfl, rfl⟩

theorem End_InRange (s : benchfiler_state) (now : Nat) (hr : s.InRange) :
    (End s now).InRange := by
  cases h : commits s now with
  | true => exact (End_of_commits s now hr h).1
  | false =>
    obtain ⟨h1, h2, h3, h4⟩ := End_of_not_commits s now h
    unfold benchfiler_state.InRange
    rw [h1, h2, h3, h4]
    exact hr

theorem zeroState_InRange : zeroState.InRange := by decide

theorem runMarks_nil (s : benchfiler_state) : runMarks s [] = s := rfl

theorem runMarks_cons (s : benchfiler_state) (m : Mark) (ms : List Mark) :
    runMarks s (m :: ms) = runMarks (Mark.apply s m) ms := rfl

theorem runMarks_append (s : benchfiler_state) (ms ns : List Mark) :
    runMarks s (ms ++ ns) = runMarks (runMarks s ms) ns := by
  simp [runMarks, List.foldl_append]

theorem committed_append (ms ns : List Mark) : ∀ s : benchfiler_state,
    committed s (ms ++ ns) = committed s ms ++ committed (runMarks s ms) ns := by
  induction ms with
  | nil => intro s; rfl
  | cons m ms ih =>
    intro s
    cases m with
    | Begin now =>
      simp only [List.cons_append, committed, runMarks_cons, Mark.apply]
      exact ih _
    | End now =>
      simp only [List.cons_append, committed, runMarks_cons, Mark.apply, List.append_assoc]
      exact congrArg _ (ih _)

/-- The accumulation invariant: over any sequence of `Begin` and `End` calls
the total grows by exactly the committed durations and the count by their
number, and the fields stay 64-bit values. -/
theorem runMarks_accumulates (ms : List Mark) : ∀ s : benchfiler_state, s.InRange →
    (runMarks s ms).InRange
      ∧ (runMarks s ms).allDurationTicks = s.allDurationTicks + (committed s ms).sum
      ∧ (runMarks s ms).count = s.count + (committed s ms).length := by
  induction ms with
  | nil => intro s hr; exact ⟨hr, rfl, rfl⟩
  | cons m ms ih =>
    intro s hr
    cases m with
    | Begin now =>
      obtain ⟨h1, h2, h3⟩ := ih (Begin s now) (Begin_InRange s now hr)
      exact ⟨h1, h2, h3⟩
    | End now =>
      obtain ⟨h1, h2, h3⟩ := ih (End s now) (End_InRange s now hr)
      refine ⟨h1, ?_, ?_⟩
      · rw [runMarks_cons]
        show (runMarks (End s now) ms).allDurationTicks = _
        rw [h2]
        cases hc : commits s now with
        | true =>
          rw [(End_of_commits s now hr hc).2.1]
          simp [committed, hc]; omega
        | false =>
          rw [(End_of_not_commits s now hc).2.2.1]
          simp [committed, hc]
      · rw [runMarks_cons]
        show (runMarks (End s now) ms).count = _
        rw [h3]
        cases hc : commits s now with
        | true =>
          rw [(End_of_commits s now hr hc).2.2]
          simp [committed, hc]; omega
        | false =>
          rw [(End_of_not_commits s now hc).2.1]
          simp [committed, hc]

/-! ## Sequences of timed `Begin`/`End` pairs -/

theorem runPairs_nil (s : benchfiler_state) : runPairs s [] = s := rfl

theorem runPairs_cons (s : benchfiler_state) (p : Nat × Nat) (ps : List (Nat × Nat)) :
    runPairs s (p :: ps) = runPairs (timedPair s p) ps := rfl

theorem runPairs_append (s : benchfiler_state) (ps qs : List (Nat × Nat)) :
    runPairs s (ps ++ qs) = runPairs (runPairs s ps) qs := by
  simp [runPairs, List.foldl_append]

theorem timedPair_commit (s : benchfiler_state) (p : Nat × Nat) (hf : s.filled = false)
    (hsum : s.allDurationTicks + p.2 < U64) (hc : s.count < UINT64_MAX) :
    timedPair s p =
      { beginTimeTicks := Sample p.1
        count := s.count + 1
        allDurationTicks := s.allDurationTicks + p.2
        fastestTicks := keepFastest s.fastestTicks p.2
        filled := false } := by
  have hd : durationTicks (Begin s p.1) (p.1 + p.2) = p.2 :=
    durationTicks_Begin s p.1 p.2 (by omega)
  unfold timedPair
  rw [End_commit (Begin s p.1) (p.1 + p.2) hf (by rw [hd]; exact hsum) hc, hd]
  rfl

/-- While neither the total nor the count reaches its limit, every timed pair
commits. -/
theorem runPairs_commits (ps : List (Nat × Nat)) : ∀ s : benchfiler_state,
    s.filled = false → s.allDurationTicks + (durations ps).sum < U64 →
    s.count + ps.length < U64 →
    (runPairs s ps).filled = false
      ∧ (runPairs s ps).count = s.count + ps.length
      ∧ (runPairs s ps).allDurationTicks = s.allDurationTicks + (durations ps).sum
      ∧ (runPairs s ps).fastestTicks = (durations ps).foldl keepFastest s.fastestTicks := by
  induction ps with
  | nil => intro s hf _ _; exact ⟨hf, rfl, rfl, rfl⟩
  | cons p ps ih =>
    intro s hf hsum hlen
    simp only [durations, List.map_cons, List.sum_cons, List.length_cons] at hsum hlen
    have hstep := timedPair_commit s p hf (by omega)
      (by unfold UINT64_MAX; unfold U64 at hlen; omega)
    have hrec := ih (timedPair s p) (by rw [hstep])
      (by rw [hstep]; simp only [durations]; omega) (by rw [hstep]; simp only; omega)
    rw [runPairs_cons]
    obtain ⟨h1, h2, h3, h4⟩ := hrec
    refine ⟨h1, ?_, ?_, ?_⟩
    · rw [h2, hstep]; simp only [List.length_cons]; omega
    · rw [h3, hstep]; simp only [durations, List.map_cons, List.sum_cons]; omega
    · rw [h4, hstep]; simp only [durations, List.map_cons, List.foldl_cons]

/-- Started from a positive value, `keepFastest` over positive durations is
the running minimum. -/
theorem foldl_keepFastest_pos (ds : List Nat) : ∀ f : Nat, 0 < f → (∀ d ∈ ds, 0 < d) →
    0 < ds.foldl keepFastest f
      ∧ ds.foldl keepFastest f ≤ f
      ∧ (∀ d ∈ ds, ds.foldl keepFastest f ≤ d)
      ∧ (ds.foldl keepFastest f = f ∨ ds.foldl keepFastest f ∈ ds) := by
  induction ds with
  | nil => intro f hf _; simp [hf]
  | cons d ds ih =>
    intro f hf hpos
    have hd : 0 < d := hpos d (List.mem_cons_self d ds)
    have hk : 0 < keepFastest f d ∧ keepFastest f d ≤ f ∧ keepFastest f d ≤ d
        ∧ (keepFastest f d = f ∨ keepFastest f d = d) := by
      unfold keepFastest
      by_cases h : d < f
      · simp [h]; omega
      · have : ¬ (d < f ∨ f = 0) := by omega
        simp [this]; omega
    obtain ⟨k1, k2, k3, k4⟩ := hk
    obtain ⟨h1, h2, h3, h4⟩ := ih (keepFastest f d) k1
      (fun x hx => hpos x (List.mem_cons_of_mem d hx))
    rw [List.foldl_cons]
    refine ⟨h1, by omega, ?_, ?_⟩
    · intro x hx
      rcases List.mem_cons.1 hx with rfl | hx
      · omega
      · exact h3 x hx
    · rcases h4 with h4 | h4
      · rcases k4 with k4 | k4
        · left; rw [h4, k4]
        · right; rw [h4, k4]; exact List.mem_cons_self d ds
      · right; exact List.mem_cons_of_mem d h4

/-- Started from the sentinel 0, `keepFastest` over positive durations yields
their minimum. -/
theorem foldl_keepFastest_zero (ds : List Nat) (hne : ds ≠ []) (hpos : ∀ d ∈ ds, 0 < d) :
    ds.foldl keepFastest 0 ∈ ds ∧ ∀ d ∈ ds, ds.foldl keepFastest 0 ≤ d := by
  cases ds with
  | nil => exact absurd rfl hne
  | cons d ds =>
    have hd : 0 < d := hpos d (List.mem_cons_self d ds)
    have hk : keepFastest 0 d = d := by simp [keepFastest]
    obtain ⟨-, h2, h3, h4⟩ := foldl_keepFastest_pos ds d hd
      (fun x hx => hpos x (List.mem_cons_of_mem d hx))
    rw [List.foldl_cons, hk]
    constructor
    · rcases h4 with h4 | h4
      · rw [h4]; exact List.mem_cons_self d ds
      · exact List.mem_cons_of_mem d h4
    · intro x hx
      rcases List.mem_cons.1 hx with rfl | hx
      · exact h2
      · exact h3 x hx

theorem length_le_sum_of_pos (ds : List Nat) (hpos : ∀ d ∈ ds, 0 < d) :
    ds.length ≤ ds.sum := by
  induction ds with
  | nil => simp
  | cons d ds ih =>
    have hd : 0 < d := hpos d (List.mem_cons_self d ds)
    have := ih (fun x hx => hpos x (List.mem_cons_of_mem d hx))
    simp only [List.length_cons, List.sum_cons]
    omega

theorem durations_length (ps : List (Nat × Nat)) : (durations ps).length = ps.length := by
  simp [durations]

theorem durations_replicate_zero (n : Nat) :
    (durations (List.replicate n ((0 : Nat), (0 : Nat)))).sum = 0 := by
  simp [durations]

theorem timedPair_at_count_limit (s : benchfiler_state) (p : Nat × Nat)
    (hf : s.filled = false) (hc : s.count = UINT64_MAX) :
    (timedPair s p).count = UINT64_MAX
      ∧ (timedPair s p).allDurationTicks = s.allDurationTicks
      ∧ (timedPair s p).fastestTicks = s.fastestTicks
      ∧ (timedPair s p).filled = true := by
  have hf1 : (Begin s p.1).filled = false := hf
  have hc1 : (Begin s p.1).count = UINT64_MAX := hc
  unfold timedPair
  rw [End_freeze (Begin s p.1) (p.1 + p.2) hf1 (Or.inr hc1)]
  exact ⟨hc, rfl, rfl, rfl⟩

/-- After `2^64` pairs of duration 0 the count stands at `UINT64_MAX`: the
last `End` finds the count at its limit and freezes. -/
theorem runPairs_zero_durations_limit :
    (runPairs zeroState (List.replicate U64 ((0 : Nat), (0 : Nat)))).count = UINT64_MAX
      ∧ (runPairs zeroState (List.replicate U64 ((0 : Nat), (0 : Nat)))).allDurationTicks = 0
      ∧ (runPairs zeroState (List.replicate U64 ((0 : Nat), (0 : Nat)))).filled = true := by
  have hU : U64 = UINT64_MAX + 1 := by decide
  obtain ⟨h1, h2, h3, -⟩ := runPairs_commits (List.replicate UINT64_MAX ((0 : Nat), (0 : Nat)))
    zeroState rfl
    (by rw [durations_replicate_zero]; decide)
    (by rw [List.length_replicate]; decide)
  rw [durations_replicate_zero] at h3
  rw [List.length_replicate] at h2
  rw [hU, List.replicate_succ', runPairs_append, runPairs_cons, runPairs_nil]
  generalize runPairs zeroState (List.replicate UINT64_MAX ((0 : Nat), (0 : Nat))) = s at h1 h2 h3
  have hc : s.count = UINT64_MAX := by rw [h2]; decide
  obtain ⟨k1, k2, -, k4⟩ := timedPair_at_count_limit s (0, 0) h1 hc
  exact ⟨k1, by rw [k2, h3]; rfl, k4⟩

/-! ## `Report` and what follows it -/

theorem Report_of_pos (t : Nat) (s : benchfiler_state) (hc : 0 < s.count) (ht : 0 < t) :
    Report t s =
      some ({ avgMicros := s.allDurationTicks / s.count / t
              fastestMicros := s.fastestTicks / t
              count := s.count }, zeroState) := by
  have h1 : s.count ≠ 0 := by omega
  have h2 : t ≠ 0 := by omega
  simp [Report, h1, h2]

theorem runCalls_Report_cons (t : Nat) (s : benchfiler_state) (cs : List Call)
    (hc : 0 < s.count) (ht : 0 < t) :
    runCalls t s (Call.Report :: cs) =
      (runCalls t zeroState cs).map
        (fun rest =>
          (zeroState, some { avgMicros := s.allDurationTicks / s.count / t
                             fastestMicros := s.fastestTicks / t
                             count := s.count }) :: rest) := by
  simp only [runCalls, Call.step, Report_of_pos t s hc ht]
  cases runCalls t zeroState cs <;> rfl

/-! ## Calibration -/

theorem toUInt64_tdiv_natCast (f : Nat) (hf : f < 2 ^ 63) :
    toUInt64 (Int.tdiv (f : Int) 1000000) = f / 1000000 := by
  have h : Int.tdiv (f : Int) 1000000 = ((f / 1000000 : Nat) : Int) := rfl
  rw [h]
  unfold toUInt64 U64
  omega

/-! ## The latch -/

theorem runMarks_of_filled (ms : List Mark) : ∀ s : benchfiler_state, s.filled = true →
    (runMarks s ms).filled = true
      ∧ (runMarks s ms).count = s.count
      ∧ (runMarks s ms).allDurationTicks = s.allDurationTicks
      ∧ (runMarks s ms).fastestTicks = s.fastestTicks := by
  induction ms with
  | nil => intro s hf; exact ⟨hf, rfl, rfl, rfl⟩
  | cons m ms ih =>
    intro s hf
    rw [runMarks_cons]
    cases m with
    | Begin now => exact ih (Begin s now) hf
    | End now =>
      have h : Mark.apply s (Mark.End now) = s := End_filled s now hf
      rw [h]
      exact ih s hf

theorem End_filled_iff (s : benchfiler_state) (now : Nat) (hr : s.InRange)
    (hf : s.filled = false) (hc : s.count < UINT64_MAX) :
    (End s now).filled = true ↔ U64 ≤ s.allDurationTicks + durationTicks s now := by
  constructor
  · intro h
    by_contra hlt
    rw [End_commit s now hf (by omega) hc] at h
    exact Bool.false_ne_true h
  · intro h
    rw [End_freeze s now hf (Or.inl (add64_wrap hr.2.2.1 (durationTicks_lt s now) h))]

/-! ## The count after an `End` -/

/-- In a state whose count is 0 only if nothing was accumulated and the latch
is open, `End` leaves a count of at least 1. -/
theorem End_count_pos (s : benchfiler_state) (now : Nat) (hr : s.InRange)
    (hJ : s.count = 0 → s.allDurationTicks = 0 ∧ s.filled = false) :
    1 ≤ (End s now).count := by
  cases hc : commits s now with
  | true => rw [(End_of_commits s now hr hc).2.2]; omega
  | false =>
    rw [(End_of_not_commits s now hc).2.1]
    by_contra hlt
    have h0 : s.count = 0 := by omega
    obtain ⟨ha, hf⟩ := hJ h0
    have hd := durationTicks_lt s now
    have : commits s now = true :=
      (commits_iff s now hr).2 ⟨hf, by rw [ha]; omega, by rw [h0]; decide⟩
    rw [hc] at this
    exact Bool.false_ne_true this

theorem runMarks_count_pos (ms : List Mark) : ∀ s : benchfiler_state, s.InRange →
    (s.count = 0 → s.allDurationTicks = 0 ∧ s.filled = false) →
    ((runMarks s ms).count = 0 →
        (runMarks s ms).allDurationTicks = 0 ∧ (runMarks s ms).filled = false)
      ∧ (1 ≤ s.count → 1 ≤ (runMarks s ms).count)
      ∧ ((∃ now, Mark.End now ∈ ms) → 1 ≤ (runMarks s ms).count) := by
  induction ms with
  | nil =>
    intro s _ hJ
    refine ⟨hJ, fun h => h, ?_⟩
    rintro ⟨now, h⟩
    simp at h
  | cons m ms ih =>
    intro s hr hJ
    rw [runMarks_cons]
    cases m with
    | Begin x =>
      obtain ⟨h1, h2, h3⟩ := ih (Begin s x) (Begin_InRange s x hr) hJ
      refine ⟨h1, h2, ?_⟩
      rintro ⟨now, h⟩
      rcases List.mem_cons.1 h with h | h
      · exact absurd h (by simp)
      · exact h3 ⟨now, h⟩
    | End x =>
      have hpos : 1 ≤ (End s x).count := End_count_pos s x hr hJ
      obtain ⟨h1, h2, -⟩ := ih (End s x) (End_InRange s x hr) (fun h0 => by omega)
      exact ⟨h1, fun _ => h2 hpos, fun _ => h2 hpos⟩

theorem length_mul_le_sum (ds : List Nat) (m : Nat) (h : ∀ d ∈ ds, m ≤ d) :
    ds.length * m ≤ ds.sum := by
  induction ds with
  | nil => simp
  | cons d ds ih =>
    have hd : m ≤ d := h d (List.mem_cons_self d ds)
    have := ih (fun x hx => h x (List.mem_cons_of_mem d hx))
    simp only [List.length_cons, List.sum_cons, Nat.add_mul, Nat.one_mul]
    omega

/-! ## The fastest duration under the zero sentinel -/

theorem End_fastest_of_commits (s : benchfiler_state) (now : Nat) (hr : s.InRange)
    (h : commits s now = true) :
    (End s now).fastestTicks = keepFastest s.fastestTicks (durationTicks s now) := by
  obtain ⟨hf, hsum, hlt⟩ := (commits_iff s now hr).1 h
  rw [End_commit s now hf hsum hlt]
  rfl

theorem runMarks_fastest (ms : List Mark) : ∀ s : benchfiler_state, s.InRange →
    (runMarks s ms).fastestTicks = (committed s ms).foldl keepFastest s.fastestTicks := by
  induction ms with
  | nil => intro s _; rfl
  | cons m ms ih =>
    intro s hr
    rw [runMarks_cons]
    cases m with
    | Begin x => exact ih (Begin s x) (Begin_InRange s x hr)
    | End x =>
      have hrec := ih (End s x) (End_InRange s x hr)
      show (runMarks (End s x) ms).fastestTicks = _
      rw [hrec]
      simp only [committed, List.foldl_append]
      cases hc : commits s x with
      | true => rw [End_fastest_of_commits s x hr hc]; rfl
      | false => rw [(End_of_not_commits s x hc).2.2.2]; rfl

theorem afterLastZero_concat (ds : List Nat) (d : Nat) :
    afterLastZero (ds ++ [d]) = if d = 0 then [] else afterLastZero ds ++ [d] := by
  unfold afterLastZero
  rw [List.reverse_append, List.reverse_singleton, List.singleton_append, List.takeWhile_cons]
  by_cases h : d = 0
  · simp [h]
  · simp [h]

theorem ne_zero_of_mem_afterLastZero (ds : List Nat) (x : Nat) (hx : x ∈ afterLastZero ds) :
    x ≠ 0 := by
  unfold afterLastZero at hx
  rw [List.mem_reverse] at hx
  have := List.mem_takeWhile_imp hx
  simpa using this

/-- The list `afterLastZero ds` is what follows the last 0 of `ds`. -/
theorem afterLastZero_split (ds : List Nat) :
    (0 ∉ ds → afterLastZero ds = ds)
      ∧ (0 ∈ ds → ∃ pre, ds = pre ++ 0 :: afterLastZero ds) := by
  induction ds using List.reverseRecOn with
  | nil => simp [afterLastZero]
  | append_singleton ds d ih =>
    rw [afterLastZero_concat]
    by_cases h : d = 0
    · subst h
      simp
    · simp only [h, if_false]
      constructor
      · intro hn
        rw [ih.1 (fun hm => hn (List.mem_append_left _ hm))]
      · intro hm
        have hm1 : 0 ∈ ds := by
          rcases List.mem_append.1 hm with hm | hm
          · exact hm
          · simp at hm; exact absurd hm.symm h
        obtain ⟨pre, hpre⟩ := ih.2 hm1
        refine ⟨pre, ?_⟩
        conv_lhs => rw [hpre]
        simp

theorem mem_of_mem_afterLastZero (ds : List Nat) (x : Nat) (hx : x ∈ afterLastZero ds) :
    x ∈ ds := by
  by_cases h0 : 0 ∈ ds
  · obtain ⟨pre, hpre⟩ := (afterLastZero_split ds).2 h0
    rw [hpre]
    exact List.mem_append_right _ (List.mem_cons_of_mem 0 hx)
  · rw [(afterLastZero_split ds).1 h0] at hx
    exact hx

/-- From the sentinel 0, `keepFastest` yields 0 when the list ends in 0 (or is
empty) and otherwise the minimum of what follows the last 0. -/
theorem foldl_keepFastest_afterLastZero (ds : List Nat) :
    (afterLastZero ds = [] → ds.foldl keepFastest 0 = 0)
      ∧ (afterLastZero ds ≠ [] →
          ds.foldl keepFastest 0 ∈ afterLastZero ds
            ∧ ∀ x ∈ afterLastZero ds, ds.foldl keepFastest 0 ≤ x) := by
  induction ds using List.reverseRecOn with
  | nil => simp [afterLastZero]
  | append_singleton ds d ih =>
    rw [afterLastZero_concat, List.foldl_append, List.foldl_cons, List.foldl_nil]
    by_cases h : d = 0
    · subst h
      simp [keepFastest]
    · simp only [h, if_false]
      refine ⟨fun hnil => absurd hnil (by simp), fun _ => ?_⟩
      by_cases hA : afterLastZero ds = []
      · have h0 := ih.1 hA
        rw [h0, hA]
        simp [keepFastest]
      · obtain ⟨hm, hle⟩ := ih.2 hA
        have hne := ne_zero_of_mem_afterLastZero ds _ hm
        generalize List.foldl keepFastest 0 ds = f at hm hle hne
        unfold keepFastest
        by_cases hlt : d < f
        · have : d < f ∨ f = 0 := Or.inl hlt
          simp only [this, if_true]
          refine ⟨by simp, ?_⟩
          intro x hx
          rcases List.mem_append.1 hx with hx | hx
          · have := hle x hx; omega
          · simp at hx; omega
        · have : ¬ (d < f ∨ f = 0) := by omega
          simp only [this, if_false]
          refine ⟨List.mem_append_left _ hm, ?_⟩
          intro x hx
          rcases List.mem_append.1 hx with hx | hx
          · exact hle x hx
          · simp at hx; omega

theorem afterLastZero_eq_nil_iff (ds : List Nat) (hne : ds ≠ []) :
    afterLastZero ds = [] ↔ ds.getLast? = some 0 := by
  rcases List.eq_nil_or_concat ds with h | ⟨xs, d, h⟩
  · exact absurd h hne
  · subst h
    rw [List.concat_eq_append, afterLastZero_concat, List.getLast?_append]
    by_cases hd : d = 0
    · simp [hd]
    · simp [hd]

theorem mem_le_sum (ds : List Nat) (x : Nat) (hx : x ∈ ds) : x ≤ ds.sum := by
  induction ds with
  | nil => simp at hx
  | cons d ds ih =>
    rw [List.sum_cons]
    rcases List.mem_cons.1 hx with rfl | h
    · omega
    · have := ih h; omega

/-! ## Decimal numerals and the report text -/

theorem digitChar_isDigit (k : Nat) (hk : k < 10) : (Nat.digitChar k).isDigit = true := by
  interval_cases k <;> rfl

theorem digitChar_toNat (k : Nat) (hk : k < 10) : (Nat.digitChar k).toNat - 48 = k := by
  interval_cases k <;> rfl

theorem toDigitsCore_append (b : Nat) (fuel : Nat) : ∀ (n : Nat) (ds : List Char),
    Nat.toDigitsCore b fuel n ds = Nat.toDigitsCore b fuel n [] ++ ds := by
  induction fuel with
  | zero => intro n ds; simp [Nat.toDigitsCore]
  | succ fuel ih =>
    intro n ds
    simp only [Nat.toDigitsCore]
    split
    · simp
    · rw [ih (n / b) (Nat.digitChar (n % b) :: ds), ih (n / b) [Nat.digitChar (n % b)]]
      simp

theorem toDigitsCore_digits (fuel : Nat) : ∀ n : Nat,
    ∀ c ∈ Nat.toDigitsCore 10 fuel n [], c.isDigit = true := by
  induction fuel with
  | zero => intro n c hc; simp [Nat.toDigitsCore] at hc
  | succ fuel ih =>
    intro n c hc
    simp only [Nat.toDigitsCore] at hc
    split at hc
    · simp at hc; rw [hc]; exact digitChar_isDigit _ (Nat.mod_lt _ (by decide))
    · rw [toDigitsCore_append] at hc
      rcases List.mem_append.1 hc with h | h
      · exact ih _ c h
      · simp at h; rw [h]; exact digitChar_isDigit _ (Nat.mod_lt _ (by decide))

theorem decimalValue_concat (cs : List Char) (c : Char) :
    decimalValue (cs ++ [c]) = 10 * decimalValue cs + (c.toNat - 48) := by
  simp [decimalValue, List.foldl_append]

theorem decimalValue_toDigitsCore (fuel : Nat) : ∀ n : Nat, n < fuel →
    decimalValue (Nat.toDigitsCore 10 fuel n []) = n := by
  induction fuel with
  | zero => intro n h; omega
  | succ fuel ih =>
    intro n h
    simp only [Nat.toDigitsCore]
    split
    · have : decimalValue [Nat.digitChar (n % 10)] = (Nat.digitChar (n % 10)).toNat - 48 := by
        simp [decimalValue]
      rw [this, digitChar_toNat _ (Nat.mod_lt _ (by decide))]
      omega
    · rw [toDigitsCore_append, decimalValue_concat, ih (n / 10) (by omega),
        digitChar_toNat _ (Nat.mod_lt _ (by decide))]
      omega

theorem toDigitsCore_ne_nil (fuel n : Nat) : Nat.toDigitsCore 10 (fuel + 1) n [] ≠ [] := by
  simp only [Nat.toDigitsCore]
  split
  · simp
  · rw [toDigitsCore_append]; simp

theorem repr_data (n : Nat) : (Nat.repr n).data = Nat.toDigits 10 n := rfl

/-- The numeral printed for `v` is a non-empty string of decimal digits that
denotes `v`. -/
theorem repr_is_decimal (v : Nat) :
    (Nat.repr v).data ≠ []
      ∧ (∀ c ∈ (Nat.repr v).data, c.isDigit = true)
      ∧ decimalValue (Nat.repr v).data = v := by
  rw [repr_data]
  unfold Nat.toDigits
  exact ⟨toDigitsCore_ne_nil v v, toDigitsCore_digits (v + 1) v,
    decimalValue_toDigitsCore (v + 1) v (by omega)⟩

theorem lineFeed_not_mem_repr (v : Nat) : lineFeed ∉ (Nat.repr v).data := by
  intro h
  have := (repr_is_decimal v).2.1 lineFeed h
  exact absurd this (by decide)

theorem text_eq_join_lines (r : ReportValues) :
    r.text = String.join (r.lines.map (fun l => l ++ "\n")) := by
  apply String.ext
  simp [ReportValues.text, ReportValues.lines, String.join, String.data_append]

theorem lineFeed_not_mem_lines (r : ReportValues) : ∀ l ∈ r.lines, lineFeed ∉ l.data := by
  intro l hl
  simp only [ReportValues.lines, List.mem_cons, List.mem_singleton, List.not_mem_nil,
    or_false] at hl
  rcases hl with rfl | rfl | rfl | rfl
  · decide
  · rw [String.data_append, List.mem_append]
    rintro (h | h)
    · exact absurd h (by decide)
    · exact lineFeed_not_mem_repr _ h
  · rw [String.data_append, List.mem_append]
    rintro (h | h)
    · exact absurd h (by decide)
    · exact lineFeed_not_mem_repr _ h
  · rw [String.data_append, List.mem_append]
    rintro (h | h)
    · exact absurd h (by decide)
    · exact lineFeed_not_mem_repr _ h

/-! ## Single calls -/

/-- C3: in a state that is not saturated, an End whose duration would take
totalTicks to 2^64 or beyond sets saturated and leaves beginTimestamp,
sampleCount, totalTicks and fastestTicks exactly as they were. -/
theorem End_overflow_freezes (s : benchfiler_state) (now : Nat) (hr : s.InRange)
    (hf : s.filled = false) (hov : U64 ≤ s.allDurationTicks + durationTicks s now) :
    End s now =
      { beginTimeTicks := s.beginTimeTicks
        count := s.count
        allDurationTicks := s.allDurationTicks
        fastestTicks := s.fastestTicks
        filled := true } := by
  rw [End_freeze s now hf (Or.inl (add64_wrap hr.2.2.1 (durationTicks_lt s now) hov))]

theorem End_overflow_freezes_witness :
    End { beginTimeTicks := 10, count := 4, allDurationTicks := 18446744073709551600,
          fastestTicks := 7, filled := false } 30 =
      { beginTimeTicks := 10, count := 4, allDurationTicks := 18446744073709551600,
        fastestTicks := 7, filled := true } :=
  End_overflow_freezes
    { beginTimeTicks := 10, count := 4, allDurationTicks := 18446744073709551600,
      fastestTicks := 7, filled := false } 30 (by decide) rfl (by decide)

/-- C4: in a state that is not saturated and whose sampleCount is 2^64 - 1,
End sets saturated for every clock sample and leaves sampleCount, totalTicks,
fastestTicks and beginTimestamp unchanged; sampleCount does not wrap to 0. -/
theorem End_count_limit_freezes (s : benchfiler_state) (now : Nat)
    (hf : s.filled = false) (hc : s.count = UINT64_MAX) :
    End s now =
        { beginTimeTicks := s.beginTimeTicks
          count := s.count
          allDurationTicks := s.allDurationTicks
          fastestTicks := s.fastestTicks
          filled := true }
      ∧ (End s now).count = 2 ^ 64 - 1 ∧ (End s now).count ≠ 0 := by
  have h := End_freeze s now hf (Or.inr hc)
  refine ⟨h, ?_, ?_⟩
  · rw [h]; simpa [UINT64_MAX] using hc
  · rw [h]; simp [hc, UINT64_MAX]

theorem End_count_limit_freezes_witness :
    End { beginTimeTicks := 100, count := 18446744073709551615, allDurationTicks := 5,
          fastestTicks := 0, filled := false } 103 =
        { beginTimeTicks := 100, count := 18446744073709551615, allDurationTicks := 5,
          fastestTicks := 0, filled := true }
      ∧ (End { beginTimeTicks := 100, count := 18446744073709551615, allDurationTicks := 5,
               fastestTicks := 0, filled := false } 103).count = 2 ^ 64 - 1
      ∧ (End { beginTimeTicks := 100, count := 18446744073709551615, allDurationTicks := 5,
               fastestTicks := 0, filled := false } 103).count ≠ 0 :=
  End_count_limit_freezes
    { beginTimeTicks := 100, count := 18446744073709551615, allDurationTicks := 5,
      fastestTicks := 0, filled := false } 103 rfl rfl

/-- C8: in a state that is not saturated, with sampleCount below 2^64 - 1, an
End whose duration d (the sample minus beginTimestamp, modulo 2^64) keeps
totalTicks + d below 2^64 adds d to totalTicks, adds 1 to sampleCount, sets
fastestTicks to d when d < fastestTicks or fastestTicks = 0 and keeps it
otherwise, and leaves saturated false and beginTimestamp unchanged. -/
theorem End_commit_updates (s : benchfiler_state) (now : Nat)
    (hf : s.filled = false) (hc : s.count < 2 ^ 64 - 1)
    (hsum : s.allDurationTicks + durationTicks s now < 2 ^ 64) :
    ((durationTicks s now : Nat) : Int)
        = ((now : Int) - (s.beginTimeTicks : Int)) % (2 ^ 64 : Int)
      ∧ (End s now).allDurationTicks = s.allDurationTicks + durationTicks s now
      ∧ (End s now).count = s.count + 1
      ∧ (End s now).fastestTicks =
          (if durationTicks s now < s.fastestTicks ∨ s.fastestTicks = 0
            then durationTicks s now else s.fastestTicks)
      ∧ (End s now).filled = false
      ∧ (End s now).beginTimeTicks = s.beginTimeTicks := by
  have h := End_commit s now hf (by rw [U64_eq]; exact hsum) (by rw [UINT64_MAX_eq]; exact hc)
  refine ⟨?_, ?_, ?_, ?_, ?_, ?_⟩
  · have := durationTicks_emod s now
    simpa [U64] using this
  all_goals rw [h]

theorem End_commit_updates_witness :
    (End { beginTimeTicks := 1000, count := 2, allDurationTicks := 150,
           fastestTicks := 50, filled := false } 1040).allDurationTicks = 190
      ∧ (End { beginTimeTicks := 1000, count := 2, allDurationTicks := 150,
               fastestTicks := 50, filled := false } 1040).fastestTicks = 40 := by
  have h := End_commit_updates
    { beginTimeTicks := 1000, count := 2, allDurationTicks := 150,
      fastestTicks := 50, filled := false } 1040 rfl (by decide) (by decide)
  exact ⟨h.2.1.trans (by decide), h.2.2.2.1.trans (by decide)⟩

/-- C5: when sampleCount > 0 and ticksPerMicrosecond > 0, Report returns, and
the state it leaves is the zero state: beginTimestamp, sampleCount, totalTicks
and fastestTicks are 0 and saturated is false, whatever they were before. -/
theorem Report_resets_state (ticksPerMicrosecond : Nat) (s : benchfiler_state)
    (hc : 0 < s.count) (ht : 0 < ticksPerMicrosecond) :
    (Report ticksPerMicrosecond s).map Prod.snd =
      some { beginTimeTicks := 0, count := 0, allDurationTicks := 0, fastestTicks := 0,
             filled := false } := by
  have h1 : s.count ≠ 0 := by omega
  have h2 : ticksPerMicrosecond ≠ 0 := by omega
  simp [Report, h1, h2, zeroState]

theorem Report_resets_state_witness :
    (Report 10 { beginTimeTicks := 77, count := 3, allDurationTicks := 350,
                 fastestTicks := 50, filled := true }).map Prod.snd =
      some { beginTimeTicks := 0, count := 0, allDurationTicks := 0, fastestTicks := 0,
             filled := false } :=
  Report_resets_state 10
    { beginTimeTicks := 77, count := 3, allDurationTicks := 350, fastestTicks := 50,
      filled := true } (by decide) (by decide)

/-- C10: a sequence of Begin calls with no End in between, whatever the clock
samples, leaves sampleCount, totalTicks, fastestTicks and saturated unchanged;
with no call the state is unchanged altogether, and otherwise beginTimestamp
is the sample of the last Begin (as a 64-bit value: the sample itself when it
is below 2^64). -/
theorem Begin_only_frame (s : benchfiler_state) (samples : List Nat) :
    (runBegins s samples).count = s.count
      ∧ (runBegins s samples).allDurationTicks = s.allDurationTicks
      ∧ (runBegins s samples).fastestTicks = s.fastestTicks
      ∧ (runBegins s samples).filled = s.filled
      ∧ runBegins s [] = s
      ∧ ∀ x, samples.getLast? = some x →
          (runBegins s samples).beginTimeTicks = x % 2 ^ 64
            ∧ (x < 2 ^ 64 → (runBegins s samples).beginTimeTicks = x) := by
  obtain ⟨h1, h2, h3, h4⟩ := runBegins_frame samples s
  refine ⟨h1, h2, h3, h4, rfl, ?_⟩
  intro x hx
  have h := runBegins_stamp samples s x hx
  refine ⟨by rw [h, Sample, U64_eq], fun hlt => ?_⟩
  rw [h]
  exact Sample_of_lt (by rw [U64_eq]; exact hlt)

theorem Begin_only_frame_witness :
    (runBegins { beginTimeTicks := 9, count := 3, allDurationTicks := 350,
                 fastestTicks := 50, filled := false } [11, 12, 13]).beginTimeTicks = 13 :=
  ((Begin_only_frame
      { beginTimeTicks := 9, count := 3, allDurationTicks := 350, fastestTicks := 50,
        filled := false } [11, 12, 13]).2.2.2.2.2 13 rfl).2 (by decide)

/-- C9: from the zero state, after any number of Begin calls with any clock
samples, the first End of the cycle commits: it does not saturate, and it
leaves fastestTicks and totalTicks equal to its duration, whatever that
duration is, with sampleCount 1. -/
theorem first_End_sets_fastest (samples : List Nat) (now : Nat) :
    commits (runBegins zeroState samples) now = true
      ∧ (End (runBegins zeroState samples) now).filled = false
      ∧ (End (runBegins zeroState samples) now).fastestTicks
          = durationTicks (runBegins zeroState samples) now
      ∧ (End (runBegins zeroState samples) now).count = 1
      ∧ (End (runBegins zeroState samples) now).allDurationTicks
          = durationTicks (runBegins zeroState samples) now := by
  obtain ⟨h1, h2, h3, h4⟩ := runBegins_frame samples zeroState
  have hd := durationTicks_lt (runBegins zeroState samples) now
  have hc : (runBegins zeroState samples).count = 0 := h1
  have ha : (runBegins zeroState samples).allDurationTicks = 0 := h2
  have hfa : (runBegins zeroState samples).fastestTicks = 0 := h3
  have hfi : (runBegins zeroState samples).filled = false := h4
  have h := End_commit (runBegins zeroState samples) now hfi (by rw [ha]; omega)
    (by rw [hc]; decide)
  refine ⟨?_, ?_, ?_, ?_, ?_⟩
  · simp [commits, hfi, ha, hc, UINT64_MAX]
  · rw [h]
  · rw [h]; simp [hfa]
  · rw [h]; simp [hc]
  · rw [h]; simp [ha]

/-- C7: in every state reached from the zero state by Begin and End calls
with arbitrary clock samples, totalTicks is the exact sum of the durations of
the End calls that committed, that sum is below 2^64, and sampleCount is the
number of End calls that committed; a further End whose duration would take
the sum to 2^64 or beyond does not commit and leaves totalTicks as it is. -/
theorem totalTicks_is_exact_sum (ms : List Mark) :
    (runMarks zeroState ms).allDurationTicks = (committed zeroState ms).sum
      ∧ (committed zeroState ms).sum < 2 ^ 64
      ∧ (runMarks zeroState ms).count = (committed zeroState ms).length
      ∧ ∀ now, 2 ^ 64 ≤ (committed zeroState ms).sum
                  + durationTicks (runMarks zeroState ms) now →
          committed zeroState (ms ++ [Mark.End now]) = committed zeroState ms
            ∧ (runMarks zeroState (ms ++ [Mark.End now])).allDurationTicks
                = (committed zeroState ms).sum := by
  obtain ⟨hr, ha, hc⟩ := runMarks_accumulates ms zeroState zeroState_InRange
  have ha0 : (runMarks zeroState ms).allDurationTicks = (committed zeroState ms).sum := by
    rw [ha]; simp [zeroState]
  have hc0 : (runMarks zeroState ms).count = (committed zeroState ms).length := by
    rw [hc]; simp [zeroState]
  refine ⟨ha0, ?_, hc0, ?_⟩
  · rw [← ha0, ← U64_eq]; exact hr.2.2.1
  · intro now hov
    have hno : commits (runMarks zeroState ms) now = false := by
      cases h : commits (runMarks zeroState ms) now with
      | false => rfl
      | true =>
        have := ((commits_iff _ now hr).1 h).2.1
        rw [ha0, U64_eq] at this
        omega
    constructor
    · rw [committed_append]
      simp [committed, hno]
    · rw [runMarks_append, runMarks_cons, runMarks_nil]
      show (End (runMarks zeroState ms) now).allDurationTicks = _
      rw [(End_of_not_commits _ now hno).2.2.1, ha0]

theorem totalTicks_is_exact_sum_witness :
    committed zeroState
        ([Mark.Begin 0, Mark.End 18446744073709551615, Mark.Begin 5] ++ [Mark.End 7])
      = committed zeroState [Mark.Begin 0, Mark.End 18446744073709551615, Mark.Begin 5]
    ∧ (runMarks zeroState
        ([Mark.Begin 0, Mark.End 18446744073709551615, Mark.Begin 5]
          ++ [Mark.End 7])).allDurationTicks
      = (committed zeroState
          [Mark.Begin 0, Mark.End 18446744073709551615, Mark.Begin 5]).sum :=
  (totalTicks_is_exact_sum
    [Mark.Begin 0, Mark.End 18446744073709551615, Mark.Begin 5]).2.2.2 7 (by decide)

/-! ## Whole measurement cycles -/

/-- C1 fails as stated for N = 2^64: after 2^64 Begin/End pairs of duration 0
(their exact sum, 0, is below 2^64) Report emits hit count 2^64 - 1, not N. -/
theorem hit_count_stops_at_limit :
    (1 : Nat) ≤ 1
      ∧ 1 ≤ (List.replicate (2 ^ 64) ((0 : Nat), (0 : Nat))).length
      ∧ (durations (List.replicate (2 ^ 64) ((0 : Nat), (0 : Nat)))).sum < 2 ^ 64
      ∧ (Report 1 (runPairs zeroState (List.replicate (2 ^ 64) ((0 : Nat), (0 : Nat))))).map
            (fun o => o.1.count) = some (2 ^ 64 - 1)
      ∧ (2 ^ 64 - 1 : Nat) ≠ (List.replicate (2 ^ 64) ((0 : Nat), (0 : Nat))).length := by
  obtain ⟨hc, -, -⟩ := runPairs_zero_durations_limit
  rw [U64_eq] at hc
  refine ⟨le_refl 1, ?_, ?_, ?_, ?_⟩
  · rw [List.length_replicate]; exact Nat.one_le_two_pow
  · rw [durations_replicate_zero]; exact Nat.two_pow_pos 64
  · have hne : (runPairs zeroState (List.replicate (2 ^ 64) ((0 : Nat), (0 : Nat)))).count ≠ 0 := by
      rw [hc]; decide
    simp only [Report, hne, if_false, one_ne_zero, Option.map_some', hc]
    rfl
  · rw [List.length_replicate]; decide

/-- C1 (amended): for ticksPerMicrosecond t >= 1, N Begin/End pairs with
1 <= N <= 2^64 - 1 whose i-th End samples the clock exactly d_i ticks after
its Begin, the exact sum of the d_i being below 2^64, run from the zero
state, make Report emit average = floor(floor((d1+...+dN)/N) / t) and hit
count = N. -/
theorem Report_average_and_count (t : Nat) (ps : List (Nat × Nat)) (ht : 1 ≤ t)
    (hN : 1 ≤ ps.length) (hlen : ps.length ≤ 2 ^ 64 - 1)
    (hsum : (durations ps).sum < 2 ^ 64) :
    (Report t (runPairs zeroState ps)).map (fun o => (o.1.avgMicros, o.1.count))
      = some ((durations ps).sum / ps.length / t, ps.length) := by
  obtain ⟨-, h2, h3, -⟩ := runPairs_commits ps zeroState rfl
    (by rw [U64_eq]; simpa [zeroState] using hsum)
    (by rw [U64_eq]; simp only [zeroState]; omega)
  have hc : (runPairs zeroState ps).count = ps.length := by rw [h2]; simp [zeroState]
  have ha : (runPairs zeroState ps).allDurationTicks = (durations ps).sum := by
    rw [h3]; simp [zeroState]
  have hne : ps.length ≠ 0 := by omega
  have htne : t ≠ 0 := by omega
  simp only [Report, hc, ha, hne, htne, if_false, Option.map_some']

theorem Report_average_and_count_witness :
    (Report 10 (runPairs zeroState [(7, 100), (1000, 50), (18446744073709551610, 200)])).map
        (fun o => (o.1.avgMicros, o.1.count))
      = some (11, 3) :=
  Report_average_and_count 10 [(7, 100), (1000, 50), (18446744073709551610, 200)]
    (by decide) (by decide) (by decide) (by decide)

/-- C2, evaluated where the code departs from it.  After the pairs with
durations 0 and 5 (exact sum 5, minimum 0) fastestTicks is 5, and Report at 1
tick per microsecond emits fastest = 5, where the claim gives 0: the committed
duration 0 is taken for the sentinel and replaced.  After the durations 0, 0,
0, 500 at 10 ticks per microsecond Report emits fastest = 50 above
average = 12. -/
theorem fastest_forgets_zero_duration :
    (durations [((0 : Nat), (0 : Nat)), (0, 5)]).sum < 2 ^ 64
      ∧ (0 ∈ durations [((0 : Nat), (0 : Nat)), (0, 5)]
          ∧ ∀ d ∈ durations [((0 : Nat), (0 : Nat)), (0, 5)], 0 ≤ d)
      ∧ (runPairs zeroState [(0, 0), (0, 5)]).fastestTicks = 5
      ∧ (Report 1 (runPairs zeroState [(0, 0), (0, 5)])).map (fun o => o.1.fastestMicros)
          = some 5
      ∧ (runPairs zeroState [(0, 0), (0, 0), (0, 0), (0, 500)]).fastestTicks = 500
      ∧ (Report 10 (runPairs zeroState [(0, 0), (0, 0), (0, 0), (0, 500)])).map Prod.fst
          = some { avgMicros := 12, fastestMicros := 50, count := 4 } := by
  refine ⟨by decide, ⟨by decide, fun d _ => Nat.zero_le d⟩, by decide, by decide,
    by decide, by decide⟩

/-- Where the sentinel does no harm: for ticksPerMicrosecond t >= 1 and
N >= 1 Begin/End pairs with strictly positive durations d1..dN whose exact
sum is below 2^64, run from the zero state, fastestTicks is the minimum of
d1..dN (one of the d_i, and at most each of them), and Report emits
fastest = floor(min / t). -/
theorem fastest_is_minimum_of_positive (t : Nat) (ps : List (Nat × Nat)) (ht : 1 ≤ t)
    (hN : 1 ≤ ps.length) (hpos : ∀ d ∈ durations ps, 1 ≤ d)
    (hsum : (durations ps).sum < 2 ^ 64) :
    (runPairs zeroState ps).fastestTicks ∈ durations ps
      ∧ (∀ d ∈ durations ps, (runPairs zeroState ps).fastestTicks ≤ d)
      ∧ (Report t (runPairs zeroState ps)).map (fun o => o.1.fastestMicros)
          = some ((runPairs zeroState ps).fastestTicks / t) := by
  have hle := length_le_sum_of_pos (durations ps) hpos
  rw [durations_length] at hle
  obtain ⟨-, h2, -, h4⟩ := runPairs_commits ps zeroState rfl
    (by rw [U64_eq]; simpa [zeroState] using hsum)
    (by rw [U64_eq]; simp only [zeroState]; omega)
  have hne : durations ps ≠ [] := by
    intro h
    have := durations_length ps
    rw [h] at this
    simp at this
    omega
  obtain ⟨m1, m2⟩ := foldl_keepFastest_zero (durations ps) hne hpos
  have hf : (runPairs zeroState ps).fastestTicks = (durations ps).foldl keepFastest 0 := h4
  have hc : (runPairs zeroState ps).count ≠ 0 := by
    rw [h2]; simp only [zeroState]; omega
  have htne : t ≠ 0 := by omega
  refine ⟨by rw [hf]; exact m1, by rw [hf]; exact m2, ?_⟩
  simp only [Report, hc, htne, if_false, Option.map_some']

theorem fastest_is_minimum_of_positive_witness :
    (runPairs zeroState [(7, 100), (1000, 50), (5, 200)]).fastestTicks
        ∈ durations [(7, 100), (1000, 50), (5, 200)]
      ∧ (∀ d ∈ durations [(7, 100), (1000, 50), (5, 200)],
          (runPairs zeroState [(7, 100), (1000, 50), (5, 200)]).fastestTicks ≤ d)
      ∧ (Report 10 (runPairs zeroState [(7, 100), (1000, 50), (5, 200)])).map
            (fun o => o.1.fastestMicros)
          = some ((runPairs zeroState [(7, 100), (1000, 50), (5, 200)]).fastestTicks / 10) :=
  fastest_is_minimum_of_positive 10 [(7, 100), (1000, 50), (5, 200)]
    (by decide) (by decide) (by decide) (by decide)

/-- C6: no leakage across cycles.  For two states on which Report is defined
(sampleCount > 0) and the same ticksPerMicrosecond > 0, Report followed by the
same calls with the same clock samples yields the same state after every call
and, after the first Report, the same printed values; both runs continue
exactly as the same calls do from the zero state. -/
theorem no_leakage_across_cycles (t : Nat) (s1 s2 : benchfiler_state) (cs : List Call)
    (h1 : 0 < s1.count) (h2 : 0 < s2.count) (ht : 0 < t) :
    (runCalls t s1 (Call.Report :: cs)).map (List.map Prod.fst)
        = (runCalls t s2 (Call.Report :: cs)).map (List.map Prod.fst)
      ∧ (runCalls t s1 (Call.Report :: cs)).map List.tail
        = (runCalls t s2 (Call.Report :: cs)).map List.tail
      ∧ (runCalls t s1 (Call.Report :: cs)).map List.tail = runCalls t zeroState cs := by
  rw [runCalls_Report_cons t s1 cs h1 ht, runCalls_Report_cons t s2 cs h2 ht]
  cases runCalls t zeroState cs with
  | none => exact ⟨rfl, rfl, rfl⟩
  | some rest => exact ⟨rfl, rfl, rfl⟩

theorem no_leakage_across_cycles_witness :
    (runCalls 10 (runPairs zeroState [(0, 100), (0, 50), (0, 200)])
        (Call.Report :: [Call.Begin 0, Call.End 30, Call.Report])).map List.tail
      = runCalls 10 zeroState [Call.Begin 0, Call.End 30, Call.Report]
    ∧ (runCalls 10 (runPairs zeroState [(0, 100), (0, 50), (0, 200)])
        (Call.Report :: [Call.Begin 0, Call.End 30, Call.Report])).map (List.map Prod.snd)
      = some [some { avgMicros := 11, fastestMicros := 5, count := 3 }, none, none,
              some { avgMicros := 3, fastestMicros := 3, count := 1 }]
    ∧ (runCalls 10 zeroState [Call.Begin 0, Call.End 30, Call.Report]).map (List.map Prod.snd)
      = some [none, none, some { avgMicros := 3, fastestMicros := 3, count := 1 }] :=
  ⟨(no_leakage_across_cycles 10 (runPairs zeroState [(0, 100), (0, 50), (0, 200)])
      { beginTimeTicks := 0, count := 1, allDurationTicks := 0, fastestTicks := 0,
        filled := true }
      [Call.Begin 0, Call.End 30, Call.Report] (by decide) (by decide) (by decide)).2.2,
    by decide, by decide⟩

/-! ## Calibration, the latch and the overflow test -/

/-- C11: for every clock frequency f, a non-negative signed 64-bit number of
ticks per second, Initialize stores ticksPerMicrosecond = floor(f / 1000000)
and leaves RegionState as it is; Initialize called twice with the same
frequency leaves what one call leaves; Begin, End and Report leave
ticksPerMicrosecond as it is. -/
theorem Initialize_stores_calibration (g : Globals) (f now : Nat) (hf : f < 2 ^ 63) :
    (Initialize g (f : Int)).s_ticksPerMicrosecond = f / 1000000
      ∧ (Initialize g (f : Int)).s_state = g.s_state
      ∧ Initialize (Initialize g (f : Int)) (f : Int) = Initialize g (f : Int)
      ∧ (g.Begin now).s_ticksPerMicrosecond = g.s_ticksPerMicrosecond
      ∧ (g.End now).s_ticksPerMicrosecond = g.s_ticksPerMicrosecond
      ∧ ∀ r g1, g.Report = some (r, g1) →
          g1.s_ticksPerMicrosecond = g.s_ticksPerMicrosecond := by
  refine ⟨toUInt64_tdiv_natCast f hf, rfl, rfl, rfl, rfl, ?_⟩
  intro r g1 h
  unfold Globals.Report at h
  cases hrep : Report g.s_ticksPerMicrosecond g.s_state with
  | none => rw [hrep] at h; exact absurd h (by simp)
  | some o =>
    rw [hrep] at h
    simp only [Option.some.injEq, Prod.mk.injEq] at h
    rw [← h.2]

theorem Initialize_stores_calibration_witness :
    (Initialize { s_ticksPerMicrosecond := 0, s_state := zeroState }
        ((10000000 : Nat) : Int)).s_ticksPerMicrosecond = 10000000 / 1000000 :=
  (Initialize_stores_calibration { s_ticksPerMicrosecond := 0, s_state := zeroState }
    10000000 0 (by decide)).1

/-- C13: saturation is a latch.  In a saturated state End changes no field,
and after any sequence of Begin and End calls, whatever the clock samples,
saturated is still true and sampleCount, totalTicks and fastestTicks have the
values they had; Report, whenever it returns, leaves saturated false. -/
theorem saturation_is_a_latch (s : benchfiler_state) (ms : List Mark) (now t : Nat)
    (hf : s.filled = true) :
    End s now = s
      ∧ (runMarks s ms).filled = true
      ∧ (runMarks s ms).count = s.count
      ∧ (runMarks s ms).allDurationTicks = s.allDurationTicks
      ∧ (runMarks s ms).fastestTicks = s.fastestTicks
      ∧ (∀ r s1, Report t (runMarks s ms) = some (r, s1) → s1.filled = false)
      ∧ (0 < s.count → 0 < t →
          (Report t (runMarks s ms)).map (fun o => o.2.filled) = some false) := by
  obtain ⟨h1, h2, h3, h4⟩ := runMarks_of_filled ms s hf
  refine ⟨End_filled s now hf, h1, h2, h3, h4, ?_, ?_⟩
  · intro r s1 h
    unfold Report at h
    split at h
    · exact absurd h (by simp)
    · split at h
      · exact absurd h (by simp)
      · simp only [Option.some.injEq, Prod.mk.injEq] at h
        rw [← h.2]; rfl
  · intro hc ht
    rw [Report_of_pos t (runMarks s ms) (by rw [h2]; exact hc) ht]
    rfl

theorem saturation_is_a_latch_witness :
    (runMarks { beginTimeTicks := 3, count := 2, allDurationTicks := 18446744073709551600,
                fastestTicks := 9, filled := true }
        [Mark.Begin 10, Mark.End 12, Mark.End 40]).allDurationTicks
      = 18446744073709551600 :=
  (saturation_is_a_latch
    { beginTimeTicks := 3, count := 2, allDurationTicks := 18446744073709551600,
      fastestTicks := 9, filled := true }
    [Mark.Begin 10, Mark.End 12, Mark.End 40] 0 1 rfl).2.2.2.1

/-- C14: the wraparound test of End is exact.  For unsigned 64-bit totalTicks
a and duration d, the wrapped sum is below a if and only if a + d >= 2^64;
so in a state that is not saturated and whose sampleCount is below its
maximum, End saturates exactly when totalTicks + duration does not fit in 64
bits, and commits the exact sum when it fits. -/
theorem wraparound_test_is_exact (a d : Nat) (s : benchfiler_state) (now : Nat)
    (ha : a < 2 ^ 64) (hd : d < 2 ^ 64) (hr : s.InRange) (hf : s.filled = false)
    (hc : s.count < 2 ^ 64 - 1) :
    ((a + d) % 2 ^ 64 < a ↔ 2 ^ 64 ≤ a + d)
      ∧ (add64 a d < a ↔ 2 ^ 64 ≤ a + d)
      ∧ ((End s now).filled = true ↔ 2 ^ 64 ≤ s.allDurationTicks + durationTicks s now)
      ∧ (s.allDurationTicks + durationTicks s now < 2 ^ 64 →
          (End s now).filled = false
            ∧ (End s now).allDurationTicks = s.allDurationTicks + durationTicks s now) := by
  have hiff := End_filled_iff s now hr hf (by rw [UINT64_MAX_eq]; exact hc)
  rw [U64_eq] at hiff
  refine ⟨by omega, by unfold add64 U64; omega, hiff, ?_⟩
  intro hfit
  rw [End_commit s now hf (by rw [U64_eq]; exact hfit) (by rw [UINT64_MAX_eq]; exact hc)]
  exact ⟨rfl, rfl⟩

theorem wraparound_test_is_exact_witness :
    ((18446744073709551615 + 1) % 2 ^ 64 < 18446744073709551615
        ↔ 2 ^ 64 ≤ 18446744073709551615 + 1)
      ∧ ((End { beginTimeTicks := 10, count := 4, allDurationTicks := 18446744073709551600,
                fastestTicks := 7, filled := false } 30).filled = true
        ↔ 2 ^ 64 ≤ 18446744073709551600
            + durationTicks { beginTimeTicks := 10, count := 4,
                              allDurationTicks := 18446744073709551600,
                              fastestTicks := 7, filled := false } 30) := by
  have h := wraparound_test_is_exact 18446744073709551615 1
    { beginTimeTicks := 10, count := 4, allDurationTicks := 18446744073709551600,
      fastestTicks := 7, filled := false } 30 (by decide) (by decide) (by decide) rfl
    (by decide)
  exact ⟨h.1, h.2.2.1⟩

/-! ## Report after at least one End -/

/-- C15: in every state reached from the zero state by Begin and End calls
with arbitrary clock samples, sampleCount >= 1 as soon as the sequence holds
an End, and saturated = true implies sampleCount >= 1.  Hence with
ticksPerMicrosecond >= 1, which Initialize stores for every clock frequency
of at least 1000000 ticks per second, Report after at least one End divides
by no zero and returns, also in a saturated cycle. -/
theorem count_pos_after_End (ms : List Mark) (t f : Nat) (g : Globals) :
    ((∃ now, Mark.End now ∈ ms) → 1 ≤ (runMarks zeroState ms).count)
      ∧ ((runMarks zeroState ms).filled = true → 1 ≤ (runMarks zeroState ms).count)
      ∧ ((∃ now, Mark.End now ∈ ms) → 1 ≤ t →
          (Report t (runMarks zeroState ms)).isSome = true)
      ∧ (1000000 ≤ f → f < 2 ^ 63 →
          1 ≤ (Initialize g (f : Int)).s_ticksPerMicrosecond) := by
  obtain ⟨h1, -, h3⟩ := runMarks_count_pos ms zeroState zeroState_InRange
    (fun _ => ⟨rfl, rfl⟩)
  refine ⟨h3, ?_, ?_, ?_⟩
  · intro hf
    by_contra hlt
    have := (h1 (by omega)).2
    rw [hf] at this
    exact Bool.false_ne_true this.symm
  · intro hE ht
    rw [Report_of_pos t _ (h3 hE) ht]
    rfl
  · intro hlo hhi
    show 1 ≤ toUInt64 (Int.tdiv (f : Int) 1000000)
    rw [toUInt64_tdiv_natCast f hhi]
    omega

theorem count_pos_after_End_witness :
    (Report 10 (runMarks zeroState
        [Mark.Begin 0, Mark.End 18446744073709551615, Mark.Begin 5, Mark.End 7])).isSome = true
      ∧ (runMarks zeroState
          [Mark.Begin 0, Mark.End 18446744073709551615, Mark.Begin 5, Mark.End 7]).filled = true
      ∧ 1 ≤ (Initialize { s_ticksPerMicrosecond := 0, s_state := zeroState }
              ((10000000 : Nat) : Int)).s_ticksPerMicrosecond :=
  ⟨(count_pos_after_End
      [Mark.Begin 0, Mark.End 18446744073709551615, Mark.Begin 5, Mark.End 7] 10 10000000
      { s_ticksPerMicrosecond := 0, s_state := zeroState }).2.2.1
      ⟨7, by decide⟩ (by decide),
    by decide,
    (count_pos_after_End
      [Mark.Begin 0, Mark.End 18446744073709551615, Mark.Begin 5, Mark.End 7] 10 10000000
      { s_ticksPerMicrosecond := 0, s_state := zeroState }).2.2.2 (by decide) (by decide)⟩

/-- C17: for ticksPerMicrosecond t >= 1 and N >= 1 Begin/End pairs with
strictly positive durations whose exact sum is below 2^64, run from the zero
state, Report returns and the fastest value it emits,
floor(fastestTicks / t), is at most the average value it emits,
floor(floor(totalTicks / sampleCount) / t). -/
theorem fastest_le_average (t : Nat) (ps : List (Nat × Nat)) (ht : 1 ≤ t)
    (hN : 1 ≤ ps.length) (hpos : ∀ d ∈ durations ps, 1 ≤ d)
    (hsum : (durations ps).sum < 2 ^ 64) :
    Report t (runPairs zeroState ps)
        = some ({ avgMicros := (runPairs zeroState ps).allDurationTicks
                                  / (runPairs zeroState ps).count / t
                  fastestMicros := (runPairs zeroState ps).fastestTicks / t
                  count := (runPairs zeroState ps).count }, zeroState)
      ∧ (runPairs zeroState ps).fastestTicks / t
          ≤ (runPairs zeroState ps).allDurationTicks / (runPairs zeroState ps).count / t := by
  have hle := length_le_sum_of_pos (durations ps) hpos
  rw [durations_length] at hle
  obtain ⟨-, h2, h3, h4⟩ := runPairs_commits ps zeroState rfl
    (by rw [U64_eq]; simpa [zeroState] using hsum)
    (by rw [U64_eq]; simp only [zeroState]; omega)
  have hc : (runPairs zeroState ps).count = ps.length := by rw [h2]; simp [zeroState]
  have ha : (runPairs zeroState ps).allDurationTicks = (durations ps).sum := by
    rw [h3]; simp [zeroState]
  have hne : durations ps ≠ [] := by
    intro h
    have := durations_length ps
    rw [h] at this
    simp at this
    omega
  obtain ⟨-, m2⟩ := foldl_keepFastest_zero (durations ps) hne hpos
  have hf : (runPairs zeroState ps).fastestTicks = (durations ps).foldl keepFastest 0 := h4
  rw [← hf] at m2
  have hmul := length_mul_le_sum (durations ps) _ m2
  rw [durations_length] at hmul
  refine ⟨Report_of_pos t _ (by omega) (by omega), ?_⟩
  apply Nat.div_le_div_right
  rw [hc, ha]
  exact (Nat.le_div_iff_mul_le (by omega)).2 (by rw [Nat.mul_comm]; exact hmul)

theorem fastest_le_average_witness :
    (runPairs zeroState [(7, 100), (1000, 50), (5, 200)]).fastestTicks / 10
      ≤ (runPairs zeroState [(7, 100), (1000, 50), (5, 200)]).allDurationTicks
          / (runPairs zeroState [(7, 100), (1000, 50), (5, 200)]).count / 10 :=
  (fastest_le_average 10 [(7, 100), (1000, 50), (5, 200)]
    (by decide) (by decide) (by decide) (by decide)).2

/-- C16: the exact meaning of fastestTicks under the zero sentinel.  In every
state reached from the zero state by Begin and End calls of which at least one
End committed: if the last committed duration is 0 then fastestTicks = 0, and
otherwise fastestTicks is the minimum of the committed durations that come
after the most recent committed 0 (of all committed durations when none is
0); fastestTicks is one of the committed durations and at most totalTicks. -/
theorem fastestTicks_exact_meaning (ms : List Mark) (hne : committed zeroState ms ≠ []) :
    ((committed zeroState ms).getLast? = some 0 → (runMarks zeroState ms).fastestTicks = 0)
      ∧ ((committed zeroState ms).getLast? ≠ some 0 →
          (runMarks zeroState ms).fastestTicks ∈ afterLastZero (committed zeroState ms)
            ∧ ∀ d ∈ afterLastZero (committed zeroState ms),
                (runMarks zeroState ms).fastestTicks ≤ d)
      ∧ (0 ∉ committed zeroState ms →
          afterLastZero (committed zeroState ms) = committed zeroState ms)
      ∧ (0 ∈ committed zeroState ms →
          ∃ pre, committed zeroState ms
            = pre ++ 0 :: afterLastZero (committed zeroState ms))
      ∧ 0 ∉ afterLastZero (committed zeroState ms)
      ∧ (runMarks zeroState ms).fastestTicks ∈ committed zeroState ms
      ∧ (runMarks zeroState ms).fastestTicks ≤ (runMarks zeroState ms).allDurationTicks := by
  have hf : (runMarks zeroState ms).fastestTicks
      = (committed zeroState ms).foldl keepFastest 0 :=
    runMarks_fastest ms zeroState zeroState_InRange
  obtain ⟨-, ha, -⟩ := runMarks_accumulates ms zeroState zeroState_InRange
  have ha0 : (runMarks zeroState ms).allDurationTicks = (committed zeroState ms).sum := by
    rw [ha]; simp [zeroState]
  obtain ⟨k1, k2⟩ := foldl_keepFastest_afterLastZero (committed zeroState ms)
  have hiff := afterLastZero_eq_nil_iff (committed zeroState ms) hne
  have hmem : (runMarks zeroState ms).fastestTicks ∈ committed zeroState ms := by
    rw [hf]
    by_cases hA : afterLastZero (committed zeroState ms) = []
    · rw [k1 hA]
      exact List.mem_of_getLast?_eq_some (hiff.1 hA)
    · exact mem_of_mem_afterLastZero _ _ (k2 hA).1
  refine ⟨?_, ?_, (afterLastZero_split _).1, (afterLastZero_split _).2, ?_, hmem, ?_⟩
  · intro hlast
    rw [hf]
    exact k1 (hiff.2 hlast)
  · intro hlast
    rw [hf]
    exact k2 (fun hA => hlast (hiff.1 hA))
  · intro h0
    exact ne_zero_of_mem_afterLastZero _ 0 h0 rfl
  · rw [ha0]
    exact mem_le_sum _ _ hmem

theorem fastestTicks_exact_meaning_witness :
    (runMarks zeroState
        [Mark.Begin 0, Mark.End 9, Mark.Begin 20, Mark.End 20, Mark.Begin 30, Mark.End 37,
         Mark.Begin 40, Mark.End 45]).fastestTicks
      ∈ afterLastZero (committed zeroState
          [Mark.Begin 0, Mark.End 9, Mark.Begin 20, Mark.End 20, Mark.Begin 30, Mark.End 37,
           Mark.Begin 40, Mark.End 45])
    ∧ afterLastZero (committed zeroState
          [Mark.Begin 0, Mark.End 9, Mark.Begin 20, Mark.End 20, Mark.Begin 30, Mark.End 37,
           Mark.Begin 40, Mark.End 45]) = [7, 5]
    ∧ (runMarks zeroState
        [Mark.Begin 0, Mark.End 9, Mark.Begin 20, Mark.End 20, Mark.Begin 30, Mark.End 37,
         Mark.Begin 40, Mark.End 45]).fastestTicks = 5 :=
  ⟨((fastestTicks_exact_meaning
      [Mark.Begin 0, Mark.End 9, Mark.Begin 20, Mark.End 20, Mark.Begin 30, Mark.End 37,
       Mark.Begin 40, Mark.End 45] (by decide)).2.1 (by decide)).1,
    by decide, by decide⟩

/-! ## The report text -/

/-- C12: when sampleCount > 0 and ticksPerMicrosecond > 0, Report prints the
values floor(floor(totalTicks / sampleCount) / ticksPerMicrosecond),
floor(fastestTicks / ticksPerMicrosecond) and sampleCount, and the text it
prints is exactly four lines, each ended by a line feed: the header, then the
lines labelled avg (micros):, fastest (micros): and hit count: in this order,
each label followed by its value as an unsigned decimal numeral (decimal
digits only, denoting the value). -/
theorem Report_text_format (t : Nat) (s : benchfiler_state) (hc : 0 < s.count) (ht : 0 < t) :
    (Report t s).map Prod.fst
        = some { avgMicros := s.allDurationTicks / s.count / t
                 fastestMicros := s.fastestTicks / t
                 count := s.count }
      ∧ ∀ r : ReportValues,
          r.text = String.join (r.lines.map (fun l => l ++ "\n"))
            ∧ r.lines = [ "lowfiling report",
                          "    avg (micros):     " ++ Nat.repr r.avgMicros,
                          "    fastest (micros): " ++ Nat.repr r.fastestMicros,
                          "    hit count:        " ++ Nat.repr r.count ]
            ∧ (∀ l ∈ r.lines, lineFeed ∉ l.data)
            ∧ ∀ v ∈ [r.avgMicros, r.fastestMicros, r.count],
                (Nat.repr v).data ≠ []
                  ∧ (∀ c ∈ (Nat.repr v).data, c.isDigit = true)
                  ∧ decimalValue (Nat.repr v).data = v := by
  refine ⟨by rw [Report_of_pos t s hc ht]; rfl, fun r => ?_⟩
  exact ⟨text_eq_join_lines r, rfl, lineFeed_not_mem_lines r, fun v _ => repr_is_decimal v⟩

theorem Report_text_format_witness :
    (Report 10 { beginTimeTicks := 77, count := 3, allDurationTicks := 350,
                 fastestTicks := 50, filled := false }).map Prod.fst
        = some { avgMicros := 11, fastestMicros := 5, count := 3 }
      ∧ ReportValues.text { avgMicros := 11, fastestMicros := 5, count := 3 }
        = "lowfiling report\n    avg (micros):     11\n"
            ++ "    fastest (micros): 5\n    hit count:        3\n" :=
  ⟨(Report_text_format 10
      { beginTimeTicks := 77, count := 3, allDurationTicks := 350, fastestTicks := 50,
        filled := false } (by decide) (by decide)).1,
    by decide⟩

end benchfiler
